import Mathlib

/-!
Shallow embedding of the SHA-256 file-hashing engine of `src/file_hash.c`
(the bundled pure-C path `USE_BUNDLED_SHA256`, which the spec designates as
the representative implementation, together with the exported driver
`sha256_file_native`).

Machine integers are modelled as `Nat` with explicit reductions:
`uint32_t` arithmetic is `% M32`, `uint64_t` arithmetic is `% M64`.
Byte buffers are lists of `Nat`; C's `memcpy(&buf[i], src, n)` becomes
`writeAt buf i src`.  The C `for`/`while` loops over the input are modelled
by structural recursion on an explicit fuel argument that provably suffices
(`processBlocksFuel_eq`, `padZeros` below), so every definition evaluates
by kernel reduction.
-/

/-- 2^32, the modulus of `uint32_t` arithmetic. -/
def M32 : Nat := 4294967296

/-- 2^64, the modulus of `uint64_t` arithmetic. -/
def M64 : Nat := 18446744073709551616

/-- `ROTR(x, n)` of file_hash.c line 69: 32-bit right rotation
(`(x >> n) | (x << (32 - n))` on `uint32_t`). -/
def rotr (x n : Nat) : Nat := (x >>> n) ||| ((x <<< (32 - n)) % M32)

/-- `CH(x, y, z)` of line 70: `(x & y) ^ (~x & z)` on `uint32_t`
(`~x` on a 32-bit value is `x ^ 0xffffffff`). -/
def ch (x y z : Nat) : Nat := (x &&& y) ^^^ ((x ^^^ 4294967295) &&& z)

/-- `MAJ(x, y, z)` of line 71: `(x & y) ^ (x & z) ^ (y & z)`. -/
def maj (x y z : Nat) : Nat := (x &&& y) ^^^ (x &&& z) ^^^ (y &&& z)

/-- `EP0(x)` of line 72: `ROTR(x,2) ^ ROTR(x,13) ^ ROTR(x,22)`. -/
def ep0 (x : Nat) : Nat := rotr x 2 ^^^ rotr x 13 ^^^ rotr x 22

/-- `EP1(x)` of line 73: `ROTR(x,6) ^ ROTR(x,11) ^ ROTR(x,25)`. -/
def ep1 (x : Nat) : Nat := rotr x 6 ^^^ rotr x 11 ^^^ rotr x 25

/-- `SIG0(x)` of line 74: `ROTR(x,7) ^ ROTR(x,18) ^ (x >> 3)`. -/
def sig0 (x : Nat) : Nat := rotr x 7 ^^^ rotr x 18 ^^^ (x >>> 3)

/-- `SIG1(x)` of line 75: `ROTR(x,17) ^ ROTR(x,19) ^ (x >> 10)`. -/
def sig1 (x : Nat) : Nat := rotr x 17 ^^^ rotr x 19 ^^^ (x >>> 10)

/-- The round-constant table `K256[64]` of lines 50-67. -/
def K256 : List Nat :=
  [1116352408, 1899447441, 3049323471, 3921009573,
   961987163, 1508970993, 2453635748, 2870763221,
   3624381080, 310598401, 607225278, 1426881987,
   1925078388, 2162078206, 2614888103, 3248222580,
   3835390401, 4022224774, 264347078, 604807628,
   770255983, 1249150122, 1555081692, 1996064986,
   2554220882, 2821834349, 2952996808, 3210313671,
   3336571891, 3584528711, 113926993, 338241895,
   666307205, 773529912, 1294757372, 1396182291,
   1695183700, 1986661051, 2177026350, 2456956037,
   2730485921, 2820302411, 3259730800, 3345764771,
   3516065817, 3600352804, 4094571909, 275423344,
   430227734, 506948616, 659060556, 883997877,
   958139571, 1322822218, 1537002063, 1747873779,
   1955562222, 2024104815, 2227730452, 2361852424,
   2428436474, 2756734187, 3204031479, 3329325298]

/-- Big-endian 32-bit word `i` of a 64-byte block (first loop of
`sha256_transform_bundled`, lines 81-84):
`m[i] = (data[4i] << 24) | (data[4i+1] << 16) | (data[4i+2] << 8) | data[4i+3]`. -/
def beWordAt (data : List Nat) (i : Nat) : Nat :=
  (data.getD (4 * i) 0 <<< 24) ||| (data.getD (4 * i + 1) 0 <<< 16) |||
  (data.getD (4 * i + 2) 0 <<< 8) ||| data.getD (4 * i + 3) 0

/-- The first 16 entries of the message schedule `m`. -/
def initW (data : List Nat) : List Nat := (List.range 16).map (beWordAt data)

/-- Second loop of `sha256_transform_bundled` (lines 85-87): extend the
schedule array `k` more times; at each step the new entry at position
`w.length` is `SIG1(m[i-2]) + m[i-7] + SIG0(m[i-15]) + m[i-16]` (mod 2^32). -/
def extendW : Nat → List Nat → List Nat
  | 0, w => w
  | k + 1, w =>
      extendW k (w ++ [(sig1 (w.getD (w.length - 2) 0) + w.getD (w.length - 7) 0 +
        sig0 (w.getD (w.length - 15) 0) + w.getD (w.length - 16) 0) % M32])

/-- The full 64-entry message schedule `m[0..63]` of `sha256_transform_bundled`. -/
def schedule (data : List Nat) : List Nat := extendW 48 (initW data)

/-- The eight working variables `a..h` of the compression loop. -/
structure Work where
  a : Nat
  b : Nat
  c : Nat
  d : Nat
  e : Nat
  f : Nat
  g : Nat
  h : Nat
deriving DecidableEq

/-- One iteration of the 64-round loop (lines 92-97):
`t1 = h + EP1(e) + CH(e,f,g) + K256[i] + m[i]`, `t2 = EP0(a) + MAJ(a,b,c)`,
then rotate the working variables. -/
def roundStep (k m : Nat) (w : Work) : Work :=
  let t1 := (w.h + ep1 w.e + ch w.e w.f w.g + k + m) % M32
  let t2 := (ep0 w.a + maj w.a w.b w.c) % M32
  { a := (t1 + t2) % M32, b := w.a, c := w.b, d := w.c,
    e := (w.d + t1) % M32, f := w.e, g := w.f, h := w.g }

/-- `sha256_transform_bundled` (lines 77-101) as a pure function of the
8-word state and the 64-byte block: build the schedule, run 64 rounds,
add the working variables back into the state (mod 2^32). -/
def sha256_transform (state data : List Nat) : List Nat :=
  let m := schedule data
  let w0 : Work := { a := state.getD 0 0, b := state.getD 1 0, c := state.getD 2 0,
                     d := state.getD 3 0, e := state.getD 4 0, f := state.getD 5 0,
                     g := state.getD 6 0, h := state.getD 7 0 }
  let w := (List.range 64).foldl (fun w i => roundStep (K256.getD i 0) (m.getD i 0) w) w0
  [(state.getD 0 0 + w.a) % M32, (state.getD 1 0 + w.b) % M32,
   (state.getD 2 0 + w.c) % M32, (state.getD 3 0 + w.d) % M32,
   (state.getD 4 0 + w.e) % M32, (state.getD 5 0 + w.f) % M32,
   (state.getD 6 0 + w.g) % M32, (state.getD 7 0 + w.h) % M32]

/-- Specification-side message schedule: `msgW data i` is word `i` of the
schedule defined directly by the sigma0/sigma1 recurrence (big-endian block
words for `i < 16`, the recurrence for `16 ≤ i`). -/
def msgW (data : List Nat) : Nat → Nat
  | i =>
    if i < 16 then beWordAt data i
    else (sig1 (msgW data (i - 2)) + msgW data (i - 7) +
      sig0 (msgW data (i - 15)) + msgW data (i - 16)) % M32
termination_by i => i
decreasing_by all_goals omega

/-- Specification-side compression function: same rounds, but the schedule
entries are drawn from the recurrence `msgW` instead of the iteratively
built array. -/
def sha256_transform_spec (state data : List Nat) : List Nat :=
  let w0 : Work := { a := state.getD 0 0, b := state.getD 1 0, c := state.getD 2 0,
                     d := state.getD 3 0, e := state.getD 4 0, f := state.getD 5 0,
                     g := state.getD 6 0, h := state.getD 7 0 }
  let w := (List.range 64).foldl (fun w i => roundStep (K256.getD i 0) (msgW data i) w) w0
  [(state.getD 0 0 + w.a) % M32, (state.getD 1 0 + w.b) % M32,
   (state.getD 2 0 + w.c) % M32, (state.getD 3 0 + w.d) % M32,
   (state.getD 4 0 + w.e) % M32, (state.getD 5 0 + w.f) % M32,
   (state.getD 6 0 + w.g) % M32, (state.getD 7 0 + w.h) % M32]

/-- `SHA256_CTX_BUNDLED` (lines 44-48): the 8-word running state, the
64-bit total-bit counter and the 64-byte partial-block buffer.  The C
struct's `buffer` is uninitialized by `sha256_init_bundled`, so the model
carries whatever list it started with. -/
structure CTX where
  state : List Nat
  bitcount : Nat
  buffer : List Nat
deriving DecidableEq

/-- `memcpy(&buf[i], data, data.length)` on a byte buffer. -/
def writeAt (buf : List Nat) (i : Nat) (data : List Nat) : List Nat :=
  buf.take i ++ data ++ buf.drop (i + data.length)

/-- `sha256_init_bundled` (lines 103-109): set the state to the SHA-256
initialization vector and zero the bit counter.  The C code leaves the
64-byte `buffer` field uninitialized; the model takes its arbitrary
initial contents as a parameter. -/
def sha256_init_bundled (buffer : List Nat) : CTX :=
  { state := [1779033703, 3144134277, 1013904242, 2773480762,
              1359893119, 2600822924, 528734635, 1541459225],
    bitcount := 0, buffer := buffer }

/-- The inner block loop of `sha256_update_bundled` (lines 120-122):
starting at offset `i`, while `i + 64 <= data.length` transform the 64-byte
slice at `i` and advance by 64; returns the final state and offset.  The
loop is driven by fuel (one unit per iteration); `data.length` units always
suffice (`processBlocksFuel_eq`). -/
def processBlocksFuel : Nat → List Nat → List Nat → Nat → List Nat × Nat
  | 0, st, _, i => (st, i)
  | fuel + 1, st, data, i =>
      if i + 64 ≤ data.length then
        processBlocksFuel fuel (sha256_transform st ((data.drop i).take 64)) data (i + 64)
      else (st, i)

/-- `sha256_update_bundled` (lines 111-126): `index = (bitcount/8) % 64`,
`bitcount += len*8` (mod 2^64), `partLen = 64 - index`; if `len >= partLen`
top the buffer up to a full block, transform it, consume the remaining full
blocks directly from the input, and reset `index` to 0; finally copy the
leftover tail into the buffer at `index`. -/
def sha256_update_bundled (c : CTX) (data : List Nat) : CTX :=
  let index := c.bitcount / 8 % 64
  let bitcount := (c.bitcount + data.length * 8) % M64
  let partLen := 64 - index
  if partLen ≤ data.length then
    let buf1 := writeAt c.buffer index (data.take partLen)
    let p := processBlocksFuel data.length (sha256_transform c.state buf1) data partLen
    { state := p.1, bitcount := bitcount, buffer := writeAt buf1 0 (data.drop p.2) }
  else
    { state := c.state, bitcount := bitcount, buffer := writeAt c.buffer index data }

/-- Big-endian 8-byte encoding of the 64-bit counter (`finalcount`,
lines 129-132): byte `i` is `(uint8_t)(bitcount >> (56 - i*8))`. -/
def beBytes64 (n : Nat) : List Nat := (List.range 8).map (fun i => n >>> (56 - 8 * i) % 256)

/-- The zero-padding loop of `sha256_final_bundled` (lines 136-139):
while `(bitcount/8) % 64 != 56`, absorb one `0x00` byte.  Driven by fuel;
64 units always suffice because each step advances `(bitcount/8) % 64` by
one modulo 64 (`padZeros_eq_updateZeros`). -/
def padZeros : Nat → CTX → CTX
  | 0, c => c
  | fuel + 1, c =>
      if c.bitcount / 8 % 64 = 56 then c
      else padZeros fuel (sha256_update_bundled c [0])

/-- Big-endian serialization of the eight state words into the 32-byte
digest (lines 142-147). -/
def stateToBytes (st : List Nat) : List Nat :=
  st.foldr (fun w acc => (w >>> 24 % 256) :: (w >>> 16 % 256) :: (w >>> 8 % 256) :: (w % 256) :: acc) []

/-- `sha256_final_bundled` (lines 128-148): record the pre-padding bit
count, absorb `0x80`, absorb `0x00` bytes until `(bitcount/8) % 64 == 56`,
absorb the 8-byte big-endian pre-padding bit count, and serialize the state
words big-endian into the 32-byte digest. -/
def sha256_final_bundled (c : CTX) : List Nat :=
  let finalcount := beBytes64 c.bitcount
  let c1 := sha256_update_bundled c [0x80]
  let c2 := padZeros 64 c1
  let c3 := sha256_update_bundled c2 finalcount
  stateToBytes c3.state

/-- One lowercase hexadecimal digit, as printed by `sprintf("%02x", ...)`:
`0`-`9` then `a`-`f`. -/
def hexDigit (n : Nat) : Char := if n < 10 then Char.ofNat (48 + n) else Char.ofNat (87 + n)

/-- The character list of the hex rendering: each byte contributes its
high nibble then its low nibble (lines 515-517, `sprintf("%02x", hash[i])`
at offset `2*i` for a byte value below 256). -/
def toHexChars (bytes : List Nat) : List Char :=
  bytes.foldr (fun b acc => hexDigit (b / 16) :: hexDigit (b % 16) :: acc) []

/-- The hex-encoding step of `sha256_file_native` (lines 514-518): the
32-byte digest rendered as a 64-character lowercase hex string. -/
def toHex (bytes : List Nat) : String := String.mk (toHexChars bytes)

/-- Classification of failures, modelled from the spec: section 7 names the
error kinds `SourceUnavailable`, `ReadFailure` and `AllocationFailure`; the
C code itself carries no such classification (it returns `char*`/`NULL`). -/
inductive ErrKind
  | SourceUnavailable
  | ReadFailure
  | AllocationFailure
deriving DecidableEq

/-- The environment `sha256_file_native` runs against.  `contents = none`
means `fopen` fails; otherwise `contents = some chunks` lists the successive
nonempty `fread` results, after which `fread` returns 0.  `readError`
records whether the stream ended because of a mid-stream I/O error (the
stdio error flag) rather than end-of-file — observable via `ferror`, which
the C code never calls.  `allocOk` is whether `malloc` succeeds.  `garbage`
is the uninitialized stack contents of the context's 64-byte buffer. -/
structure FileEnv where
  contents : Option (List (List Nat))
  readError : Bool
  allocOk : Bool
  garbage : List Nat

/-- `sha256_file_native` (lines 403-521), bundled engine: open the file
(`NULL` on failure), allocate the working buffer (`NULL` on failure), feed
every chunk returned by `fread` to the update routine until `fread` returns
0 — the loop `while ((bytesRead = fread(...)) > 0)` never inspects
`ferror`, so `env.readError` does not influence the result — then finalize
and return the lowercase hex string. -/
def sha256_file_native (env : FileEnv) : Option String :=
  match env.contents with
  | none => none
  | some chunks =>
      if env.allocOk then
        some (toHex (sha256_final_bundled
          (chunks.foldl sha256_update_bundled (sha256_init_bundled env.garbage))))
      else none

/-- Modelled from the spec: section 7's classification of a run's failure,
by the spec's own propagation policy (open failure is `SourceUnavailable`,
then allocation failure, then a mid-stream read error is `ReadFailure`).
Missing from the code: `sha256_file_native` returns only `char*`/`NULL`. -/
def failureKind (env : FileEnv) : Option ErrKind :=
  match env.contents with
  | none => some ErrKind.SourceUnavailable
  | some _ =>
      if env.allocOk then
        (if env.readError then some ErrKind.ReadFailure else none)
      else some ErrKind.AllocationFailure

set_option maxRecDepth 100000

/-- The SHA-256 initialization vector (the state set by `sha256_init_bundled`). -/
def initialState : List Nat :=
  [1779033703, 3144134277, 1013904242, 2773480762,
   1359893119, 2600822924, 528734635, 1541459225]

/-- Reference absorption of a byte stream: repeatedly compress the leading
64-byte block while at least 64 bytes remain. -/
def foldBlocks (st : List Nat) (m : List Nat) : List Nat :=
  if h : 64 ≤ m.length then foldBlocks (sha256_transform st (m.take 64)) (m.drop 64) else st
termination_by m.length
decreasing_by simp only [List.length_drop]; omega

/-- The tail of a byte stream after its full 64-byte blocks. -/
def tail64 (m : List Nat) : List Nat := m.drop (m.length / 64 * 64)

/-- The full 64-byte blocks of a byte stream. -/
def full64 (m : List Nat) : List Nat := m.take (m.length / 64 * 64)

/-- The byte offset into the partial-block buffer, as the C code derives it:
`(bitcount / 8) % 64`. -/
def ctxIndex (c : CTX) : Nat := c.bitcount / 8 % 64

/-- The pending (absorbed but uncompressed) bytes of a context: the first
`ctxIndex` bytes of the partial-block buffer. -/
def ctxTail (c : CTX) : List Nat := c.buffer.take (ctxIndex c)

theorem bitIndex_eq (bc n : Nat) : (bc + n * 8) % M64 / 8 % 64 = (bc / 8 + n) % 64 := by
  unfold M64
  omega

theorem writeAt_length (buf : List Nat) (i : Nat) (data : List Nat)
    (h : i + data.length ≤ buf.length) : (writeAt buf i data).length = buf.length := by
  simp only [writeAt, List.length_append, List.length_take, List.length_drop]
  omega

theorem foldBlocks_short (st m : List Nat) (h : m.length < 64) : foldBlocks st m = st := by
  rw [foldBlocks]
  simp only [dif_neg (by omega : ¬ 64 ≤ m.length)]

theorem foldBlocks_step (st m : List Nat) (h : 64 ≤ m.length) :
    foldBlocks st m = foldBlocks (sha256_transform st (m.take 64)) (m.drop 64) := by
  conv_lhs => rw [foldBlocks]
  simp only [dif_pos h]

theorem foldBlocks_append_aux : ∀ (k : Nat) (st x y : List Nat), x.length = 64 * k →
    foldBlocks st (x ++ y) = foldBlocks (foldBlocks st x) y
  | 0, st, x, y, hk => by
      have hx : x = [] := List.eq_nil_of_length_eq_zero (by omega)
      subst hx
      rw [foldBlocks_short st [] (by simp), List.nil_append]
  | k + 1, st, x, y, hk => by
      have hx : 64 ≤ x.length := by omega
      have hxy : 64 ≤ (x ++ y).length := by simp only [List.length_append]; omega
      rw [foldBlocks_step st (x ++ y) hxy, foldBlocks_step st x hx]
      have ht : (x ++ y).take 64 = x.take 64 := by
        rw [List.take_append_eq_append_take, show 64 - x.length = 0 by omega]
        simp
      have hD : (x ++ y).drop 64 = x.drop 64 ++ y := by
        rw [List.drop_append_eq_append_drop, show 64 - x.length = 0 by omega]
        simp
      rw [ht, hD]
      exact foldBlocks_append_aux k _ (x.drop 64) y (by rw [List.length_drop]; omega)

theorem foldBlocks_append (st x y : List Nat) (hd : 64 ∣ x.length) :
    foldBlocks st (x ++ y) = foldBlocks (foldBlocks st x) y := by
  obtain ⟨k, hk⟩ := hd
  exact foldBlocks_append_aux k st x y hk

theorem processBlocksFuel_eq (fuel : Nat) (st d : List Nat) (i : Nat)
    (hi : i ≤ d.length) (hf : d.length - i ≤ fuel) :
    processBlocksFuel fuel st d i = (foldBlocks st (d.drop i), i + (d.length - i) / 64 * 64) := by
  induction fuel generalizing st i with
  | zero =>
      have hdi : d.length = i := by omega
      rw [processBlocksFuel, foldBlocks_short _ _ (by simp only [List.length_drop]; omega)]
      simp [hdi]
  | succ fuel ih =>
      by_cases hc : i + 64 ≤ d.length
      · rw [processBlocksFuel, if_pos hc, ih _ _ (by omega) (by omega)]
        have h1 : d.drop (i + 64) = (d.drop i).drop 64 := by
          rw [List.drop_drop]
        have h2 : foldBlocks st (d.drop i) =
            foldBlocks (sha256_transform st ((d.drop i).take 64)) (d.drop (i + 64)) := by
          rw [foldBlocks_step _ _ (by simp only [List.length_drop]; omega), h1]
        rw [← h2]
        have : i + (d.length - i) / 64 * 64 = i + 64 + (d.length - (i + 64)) / 64 * 64 := by omega
        rw [this]
      · rw [processBlocksFuel, if_neg hc,
          foldBlocks_short _ _ (by simp only [List.length_drop]; omega)]
        have : (d.length - i) / 64 = 0 := by omega
        simp [this]

theorem update_bitcount (c : CTX) (d : List Nat) :
    (sha256_update_bundled c d).bitcount = (c.bitcount + d.length * 8) % M64 := by
  simp only [sha256_update_bundled]
  split <;> rfl

theorem update_bitcount_lt (c : CTX) (d : List Nat) :
    (sha256_update_bundled c d).bitcount < M64 := by
  rw [update_bitcount]
  exact Nat.mod_lt _ (by unfold M64; omega)

theorem update_flush (c : CTX) (d : List Nat) (h : 64 - ctxIndex c ≤ d.length) :
    sha256_update_bundled c d =
      { state := foldBlocks (sha256_transform c.state
            (writeAt c.buffer (ctxIndex c) (d.take (64 - ctxIndex c)))) (d.drop (64 - ctxIndex c)),
        bitcount := (c.bitcount + d.length * 8) % M64,
        buffer := writeAt (writeAt c.buffer (ctxIndex c) (d.take (64 - ctxIndex c))) 0
          (d.drop (64 - ctxIndex c + (d.length - (64 - ctxIndex c)) / 64 * 64)) } := by
  unfold ctxIndex at h ⊢
  simp only [sha256_update_bundled]
  rw [if_pos h]
  rw [processBlocksFuel_eq d.length _ d _ (by omega) (by omega)]

theorem update_noflush (c : CTX) (d : List Nat) (h : d.length < 64 - ctxIndex c) :
    sha256_update_bundled c d =
      { state := c.state, bitcount := (c.bitcount + d.length * 8) % M64,
        buffer := writeAt c.buffer (ctxIndex c) d } := by
  unfold ctxIndex at h ⊢
  simp only [sha256_update_bundled]
  rw [if_neg (by omega)]

theorem ctxIndex_lt (c : CTX) : ctxIndex c < 64 := by
  unfold ctxIndex
  omega

theorem ctxIndex_update (c : CTX) (d : List Nat) :
    ctxIndex (sha256_update_bundled c d) = (ctxIndex c + d.length) % 64 := by
  unfold ctxIndex
  rw [update_bitcount, bitIndex_eq]
  omega

theorem ctxTail_length (c : CTX) (hlen : c.buffer.length = 64) :
    (ctxTail c).length = ctxIndex c := by
  have := ctxIndex_lt c
  simp only [ctxTail, List.length_take, hlen]
  omega

theorem ctxTail_length_lt (c : CTX) : (ctxTail c).length < 64 := by
  have := ctxIndex_lt c
  simp only [ctxTail, List.length_take]
  omega

theorem writeAt_topup (c : CTX) (d : List Nat) (hlen : c.buffer.length = 64)
    (h : 64 - ctxIndex c ≤ d.length) :
    writeAt c.buffer (ctxIndex c) (d.take (64 - ctxIndex c)) =
      ctxTail c ++ d.take (64 - ctxIndex c) := by
  have hi := ctxIndex_lt c
  unfold writeAt ctxTail
  have h1 : (d.take (64 - ctxIndex c)).length = 64 - ctxIndex c := by
    rw [List.length_take]; omega
  rw [h1, List.drop_eq_nil_of_le (by omega), List.append_nil]

theorem topup_as_take (c : CTX) (d : List Nat) (hlen : c.buffer.length = 64)
    (h : 64 - ctxIndex c ≤ d.length) :
    ctxTail c ++ d.take (64 - ctxIndex c) = (ctxTail c ++ d).take 64 := by
  have hi := ctxIndex_lt c
  have ht : (ctxTail c).length = ctxIndex c := ctxTail_length c hlen
  rw [List.take_append_eq_append_take, ht]
  congr 1
  exact (List.take_of_length_le (by omega)).symm

theorem topup_drop (c : CTX) (d : List Nat) (hlen : c.buffer.length = 64) :
    (ctxTail c ++ d).drop 64 = d.drop (64 - ctxIndex c) := by
  have hi := ctxIndex_lt c
  have ht : (ctxTail c).length = ctxIndex c := ctxTail_length c hlen
  rw [List.drop_append_eq_append_drop, List.drop_eq_nil_of_le (by omega), List.nil_append, ht]

theorem update_state (c : CTX) (d : List Nat) (hlen : c.buffer.length = 64) :
    (sha256_update_bundled c d).state = foldBlocks c.state (ctxTail c ++ d) := by
  have hi := ctxIndex_lt c
  have ht : (ctxTail c).length = ctxIndex c := ctxTail_length c hlen
  by_cases h : 64 - ctxIndex c ≤ d.length
  · rw [update_flush c d h]
    have hlong : 64 ≤ (ctxTail c ++ d).length := by
      rw [List.length_append, ht]; omega
    conv_rhs => rw [foldBlocks_step c.state (ctxTail c ++ d) hlong]
    rw [topup_drop c d hlen, ← topup_as_take c d hlen h, ← writeAt_topup c d hlen h]
  · rw [update_noflush c d (by omega)]
    rw [foldBlocks_short _ _ (by rw [List.length_append, ht]; omega)]

theorem update_buffer_length (c : CTX) (d : List Nat) (hlen : c.buffer.length = 64) :
    (sha256_update_bundled c d).buffer.length = 64 := by
  have hi := ctxIndex_lt c
  by_cases h : 64 - ctxIndex c ≤ d.length
  · rw [update_flush c d h]
    dsimp only
    have hb1 : (writeAt c.buffer (ctxIndex c) (d.take (64 - ctxIndex c))).length = 64 := by
      rw [writeAt_length _ _ _ (by rw [List.length_take, hlen]; omega), hlen]
    rw [writeAt_length _ _ _ (by rw [List.length_drop, hb1]; omega), hb1]
  · rw [update_noflush c d (by omega)]
    dsimp only
    rw [writeAt_length _ _ _ (by rw [hlen]; omega), hlen]

theorem update_tail (c : CTX) (d : List Nat) (hlen : c.buffer.length = 64) :
    ctxTail (sha256_update_bundled c d) = tail64 (ctxTail c ++ d) := by
  have hi := ctxIndex_lt c
  have ht : (ctxTail c).length = ctxIndex c := ctxTail_length c hlen
  have htb : c.buffer.take (ctxIndex c) = ctxTail c := rfl
  by_cases h : 64 - ctxIndex c ≤ d.length
  · rw [update_flush c d h]
    unfold ctxTail ctxIndex tail64
    dsimp only
    rw [bitIndex_eq]
    have hb1 : (writeAt c.buffer (c.bitcount / 8 % 64) (d.take (64 - c.bitcount / 8 % 64))).length = 64 := by
      unfold ctxIndex at hi
      rw [writeAt_length _ _ _ (by rw [List.length_take, hlen]; omega), hlen]
    have hidx : (c.bitcount / 8 + d.length) % 64 =
        d.length - (64 - c.bitcount / 8 % 64 + (d.length - (64 - c.bitcount / 8 % 64)) / 64 * 64) := by
      unfold ctxIndex at h hi
      omega
    rw [hidx]
    unfold writeAt
    rw [List.take_zero, List.nil_append, Nat.zero_add]
    have hdl : (d.drop (64 - c.bitcount / 8 % 64 +
        (d.length - (64 - c.bitcount / 8 % 64)) / 64 * 64)).length =
        d.length - (64 - c.bitcount / 8 % 64 + (d.length - (64 - c.bitcount / 8 % 64)) / 64 * 64) := by
      rw [List.length_drop]
    rw [List.take_left' hdl]
    have hlenA : (c.buffer.take (c.bitcount / 8 % 64) ++ d).length = c.bitcount / 8 % 64 + d.length := by
      rw [List.length_append, List.length_take, hlen]
      unfold ctxIndex at hi
      omega
    have harith : (c.bitcount / 8 % 64 + d.length) / 64 * 64 =
        c.bitcount / 8 % 64 + (64 - c.bitcount / 8 % 64 +
          (d.length - (64 - c.bitcount / 8 % 64)) / 64 * 64) := by
      unfold ctxIndex at h hi
      omega
    have hRHS : (c.buffer.take (c.bitcount / 8 % 64) ++ d).drop
        ((c.buffer.take (c.bitcount / 8 % 64) ++ d).length / 64 * 64) =
        d.drop (64 - c.bitcount / 8 % 64 + (d.length - (64 - c.bitcount / 8 % 64)) / 64 * 64) := by
      rw [hlenA, harith, List.drop_append_eq_append_drop,
        List.drop_eq_nil_of_le (by rw [List.length_take, hlen]; omega), List.nil_append,
        List.length_take, hlen]
      congr 1
      unfold ctxIndex at hi
      omega
    rw [hRHS]
  · rw [update_noflush c d (by omega)]
    unfold ctxTail ctxIndex tail64 writeAt
    dsimp only
    rw [bitIndex_eq]
    have hidx : (c.bitcount / 8 + d.length) % 64 = c.bitcount / 8 % 64 + d.length := by
      unfold ctxIndex at h
      omega
    have hlenA : (c.buffer.take (c.bitcount / 8 % 64) ++ d).length = c.bitcount / 8 % 64 + d.length := by
      unfold ctxIndex at h
      rw [List.length_append, List.length_take, hlen]
      omega
    rw [hidx, List.take_left' hlenA]
    have hshort : (c.buffer.take (c.bitcount / 8 % 64) ++ d).length / 64 * 64 = 0 := by
      unfold ctxIndex at h
      rw [hlenA]
      omega
    rw [hshort, List.drop_zero]

/-- Two contexts are observationally equivalent when they agree on the
state, the bit counter and the pending bytes; the bytes of the 64-byte
buffer beyond the pending region (uninitialized garbage) may differ. -/
def ctxEquiv (c1 c2 : CTX) : Prop :=
  c1.state = c2.state ∧ c1.bitcount = c2.bitcount ∧
  c1.buffer.length = 64 ∧ c2.buffer.length = 64 ∧ ctxTail c1 = ctxTail c2

theorem ctxEquiv_symm {c1 c2 : CTX} (h : ctxEquiv c1 c2) : ctxEquiv c2 c1 := by
  obtain ⟨h1, h2, h3, h4, h5⟩ := h
  exact ⟨h1.symm, h2.symm, h4, h3, h5.symm⟩

theorem ctxEquiv_trans {c1 c2 c3 : CTX} (h : ctxEquiv c1 c2) (h' : ctxEquiv c2 c3) :
    ctxEquiv c1 c3 := by
  obtain ⟨h1, h2, h3, h4, h5⟩ := h
  obtain ⟨g1, g2, g3, g4, g5⟩ := h'
  exact ⟨h1.trans g1, h2.trans g2, h3, g4, h5.trans g5⟩

theorem ctxEquiv_update {c1 c2 : CTX} (h : ctxEquiv c1 c2) (d : List Nat) :
    ctxEquiv (sha256_update_bundled c1 d) (sha256_update_bundled c2 d) := by
  obtain ⟨hs, hb, h1, h2, ht⟩ := h
  refine ⟨?_, ?_, update_buffer_length _ _ h1, update_buffer_length _ _ h2, ?_⟩
  · rw [update_state _ _ h1, update_state _ _ h2, hs, ht]
  · rw [update_bitcount, update_bitcount, hb]
  · rw [update_tail _ _ h1, update_tail _ _ h2, ht]

theorem ctxEquiv_padZeros (fuel : Nat) {c1 c2 : CTX} (h : ctxEquiv c1 c2) :
    ctxEquiv (padZeros fuel c1) (padZeros fuel c2) := by
  induction fuel generalizing c1 c2 with
  | zero => exact h
  | succ fuel ih =>
      rw [padZeros, padZeros, ← h.2.1]
      by_cases hc : c1.bitcount / 8 % 64 = 56
      · rw [if_pos hc, if_pos hc]; exact h
      · rw [if_neg hc, if_neg hc]; exact ih (ctxEquiv_update h [0])

theorem ctxEquiv_final {c1 c2 : CTX} (h : ctxEquiv c1 c2) :
    sha256_final_bundled c1 = sha256_final_bundled c2 := by
  have h1 := ctxEquiv_update h [0x80]
  have h2 := ctxEquiv_padZeros 64 h1
  have h3 := ctxEquiv_update h2 (beBytes64 c1.bitcount)
  simp only [sha256_final_bundled]
  rw [← h.2.1, h3.1]

theorem full64_append_tail64 (m : List Nat) : full64 m ++ tail64 m = m :=
  List.take_append_drop _ _

theorem full64_dvd (m : List Nat) : 64 ∣ (full64 m).length := by
  refine ⟨m.length / 64, ?_⟩
  simp only [full64, List.length_take]
  omega

theorem tail64_length (m : List Nat) : (tail64 m).length = m.length % 64 := by
  simp only [tail64, List.length_drop]
  omega

theorem tail64_short (m : List Nat) (h : m.length < 64) : tail64 m = m := by
  have h0 : m.length / 64 * 64 = 0 := by omega
  simp only [tail64, h0, List.drop_zero]

theorem foldBlocks_eq_full (st m : List Nat) : foldBlocks st m = foldBlocks st (full64 m) := by
  conv_lhs => rw [← full64_append_tail64 m]
  rw [foldBlocks_append _ _ _ (full64_dvd m)]
  exact foldBlocks_short _ _ (by rw [tail64_length]; omega)

theorem tail64_append_left (x z : List Nat) (hd : 64 ∣ x.length) :
    tail64 (x ++ z) = tail64 z := by
  obtain ⟨k, hk⟩ := hd
  unfold tail64
  have harith : (x ++ z).length / 64 * 64 = x.length + z.length / 64 * 64 := by
    rw [List.length_append, hk]
    omega
  rw [harith, List.drop_append_eq_append_drop,
    List.drop_eq_nil_of_le (by omega), List.nil_append]
  congr 1
  omega

theorem foldBlocks_absorb (st u y : List Nat) :
    foldBlocks st (u ++ y) = foldBlocks (foldBlocks st u) (tail64 u ++ y) := by
  conv_lhs => rw [← full64_append_tail64 u, List.append_assoc]
  rw [foldBlocks_append _ _ _ (full64_dvd u), ← foldBlocks_eq_full]

theorem tail64_absorb (u y : List Nat) : tail64 (u ++ y) = tail64 (tail64 u ++ y) := by
  conv_lhs => rw [← full64_append_tail64 u, List.append_assoc]
  exact tail64_append_left _ _ (full64_dvd u)

/-- Abstraction invariant: context `c` is a faithful incremental state for
the absorbed byte stream `m` — the state is the fold of the compression
function over `m`'s full blocks, the bit counter is `8 * m.length`
(mod 2^64), the buffer has its C size 64, and the pending bytes are
exactly `m`'s tail after its full blocks. -/
def Good (m : List Nat) (c : CTX) : Prop :=
  c.state = foldBlocks initialState m ∧ c.bitcount = m.length * 8 % M64 ∧
  c.buffer.length = 64 ∧ ctxTail c = tail64 m

theorem good_init (buf : List Nat) (h : buf.length = 64) :
    Good [] (sha256_init_bundled buf) := by
  refine ⟨(foldBlocks_short _ _ (by simp)).symm, by simp [sha256_init_bundled], h, ?_⟩
  simp [ctxTail, ctxIndex, sha256_init_bundled, tail64]

theorem good_update {m : List Nat} {c : CTX} (h : Good m c) (d : List Nat) :
    Good (m ++ d) (sha256_update_bundled c d) := by
  obtain ⟨hs, hb, hlen, ht⟩ := h
  refine ⟨?_, ?_, update_buffer_length _ _ hlen, ?_⟩
  · rw [update_state _ _ hlen, hs, ht, ← foldBlocks_absorb]
  · rw [update_bitcount, hb, List.length_append]
    unfold M64
    omega
  · rw [update_tail _ _ hlen, ht, ← tail64_absorb]

theorem good_index {m : List Nat} {c : CTX} (h : Good m c) :
    ctxIndex c = m.length % 64 := by
  unfold ctxIndex
  rw [h.2.1]
  have := bitIndex_eq 0 m.length
  simpa using this

theorem good_good_equiv {m : List Nat} {c1 c2 : CTX} (h1 : Good m c1) (h2 : Good m c2) :
    ctxEquiv c1 c2 := by
  obtain ⟨hs1, hb1, hl1, ht1⟩ := h1
  obtain ⟨hs2, hb2, hl2, ht2⟩ := h2
  exact ⟨hs1.trans hs2.symm, hb1.trans hb2.symm, hl1, hl2, ht1.trans ht2.symm⟩

theorem good_foldl_chunks : ∀ (cs : List (List Nat)) (m : List Nat) (c : CTX), Good m c →
    Good (m ++ cs.flatten) (cs.foldl sha256_update_bundled c)
  | [], m, c, h => by simpa using h
  | d :: cs, m, c, h => by
      have h2 := good_foldl_chunks cs (m ++ d) _ (good_update h d)
      simpa [List.append_assoc] using h2

/-- C1: chunking invariance of `sha256_update_bundled` — absorbing `a` then
`b` from a freshly initialized context (any initial buffer garbage `buf`)
and finalizing gives the same 32-byte digest as absorbing `a ++ b` in one
update call. -/
theorem chunking_invariance (a b buf : List Nat) (hbuf : buf.length = 64) :
    sha256_final_bundled
        (sha256_update_bundled (sha256_update_bundled (sha256_init_bundled buf) a) b) =
      sha256_final_bundled (sha256_update_bundled (sha256_init_bundled buf) (a ++ b)) := by
  apply ctxEquiv_final
  have g1 := good_update (good_update (good_init buf hbuf) a) b
  have g2 := good_update (good_init buf hbuf) (a ++ b)
  rw [List.nil_append] at g1 g2
  exact good_good_equiv g1 g2

/-- C10: the digest of the bundled pipeline is a deterministic function of
the absorbed byte stream alone — any two chunkings of the same bytes, run
from freshly initialized contexts whose uninitialized 64-byte buffers hold
arbitrary (possibly different) garbage, finalize to identical digests. -/
theorem digest_stream_deterministic (cs1 cs2 : List (List Nat)) (buf1 buf2 : List Nat)
    (h1 : buf1.length = 64) (h2 : buf2.length = 64) (hj : cs1.flatten = cs2.flatten) :
    sha256_final_bundled (cs1.foldl sha256_update_bundled (sha256_init_bundled buf1)) =
      sha256_final_bundled (cs2.foldl sha256_update_bundled (sha256_init_bundled buf2)) := by
  apply ctxEquiv_final
  have ga := good_foldl_chunks cs1 [] _ (good_init buf1 h1)
  have gb := good_foldl_chunks cs2 [] _ (good_init buf2 h2)
  rw [List.nil_append] at ga gb
  rw [hj] at ga
  exact good_good_equiv ga gb

theorem ctxEquiv_update_nil (c : CTX) (hlen : c.buffer.length = 64) (hbc : c.bitcount < M64) :
    ctxEquiv c (sha256_update_bundled c []) := by
  refine ⟨?_, ?_, hlen, update_buffer_length _ _ hlen, ?_⟩
  · rw [update_state _ _ hlen, List.append_nil]
    exact (foldBlocks_short _ _ (ctxTail_length_lt c)).symm
  · rw [update_bitcount]
    simp [Nat.mod_eq_of_lt hbc]
  · rw [update_tail _ _ hlen, List.append_nil,
      tail64_short _ (ctxTail_length_lt c)]

theorem update_append_equiv (c : CTX) (x y : List Nat) (hlen : c.buffer.length = 64) :
    ctxEquiv (sha256_update_bundled c (x ++ y))
      (sha256_update_bundled (sha256_update_bundled c x) y) := by
  have hlx := update_buffer_length c x hlen
  refine ⟨?_, ?_, update_buffer_length _ _ hlen, update_buffer_length _ _ hlx, ?_⟩
  · rw [update_state _ _ hlen, update_state _ _ hlx, update_state _ _ hlen,
      update_tail _ _ hlen, ← List.append_assoc]
    exact foldBlocks_absorb c.state (ctxTail c ++ x) y
  · rw [update_bitcount, update_bitcount, update_bitcount, List.length_append]
    unfold M64
    omega
  · rw [update_tail _ _ hlen, update_tail _ _ hlx, update_tail _ _ hlen,
      ← List.append_assoc]
    exact tail64_absorb (ctxTail c ++ x) y

/-- The zero-padding loop unrolled: absorb `k` single `0x00` bytes. -/
def updateZeros : Nat → CTX → CTX
  | 0, c => c
  | k + 1, c => updateZeros k (sha256_update_bundled c [0])

theorem padZeros_eq_updateZeros (fuel : Nat) (c : CTX)
    (h : (56 + 64 - c.bitcount / 8 % 64) % 64 ≤ fuel) :
    padZeros fuel c = updateZeros ((56 + 64 - c.bitcount / 8 % 64) % 64) c := by
  induction fuel generalizing c with
  | zero =>
      have h0 : (56 + 64 - c.bitcount / 8 % 64) % 64 = 0 := by omega
      rw [h0]
      rfl
  | succ fuel ih =>
      by_cases hc : c.bitcount / 8 % 64 = 56
      · have h0 : (56 + 64 - c.bitcount / 8 % 64) % 64 = 0 := by omega
        rw [h0, padZeros, if_pos hc]
        rfl
      · have hidx : (sha256_update_bundled c [0]).bitcount / 8 % 64 =
            (c.bitcount / 8 + 1) % 64 := by
          rw [update_bitcount]
          have := bitIndex_eq c.bitcount 1
          simpa using this
        have hdist : (56 + 64 - (sha256_update_bundled c [0]).bitcount / 8 % 64) % 64 =
            (56 + 64 - c.bitcount / 8 % 64) % 64 - 1 := by
          rw [hidx]
          omega
        rw [padZeros, if_neg hc, ih _ (by omega), hdist]
        obtain ⟨D, hD⟩ : ∃ D, (56 + 64 - c.bitcount / 8 % 64) % 64 = D + 1 :=
          ⟨(56 + 64 - c.bitcount / 8 % 64) % 64 - 1, by omega⟩
        rw [hD]
        rfl

theorem ctxEquiv_updateZeros (k : Nat) (c : CTX) (hlen : c.buffer.length = 64)
    (hbc : c.bitcount < M64) :
    ctxEquiv (updateZeros k c) (sha256_update_bundled c (List.replicate k 0)) := by
  induction k generalizing c with
  | zero =>
      rw [List.replicate_zero]
      exact ctxEquiv_update_nil c hlen hbc
  | succ k ih =>
      have step : updateZeros (k + 1) c = updateZeros k (sha256_update_bundled c [0]) := rfl
      rw [step]
      have h1 := ih (sha256_update_bundled c [0]) (update_buffer_length _ _ hlen)
        (update_bitcount_lt _ _)
      have h2 := ctxEquiv_symm (update_append_equiv c [0] (List.replicate k 0) hlen)
      have h3 := ctxEquiv_trans h1 h2
      have hrep : (0 : Nat) :: List.replicate k 0 = List.replicate (k + 1) 0 :=
        (List.replicate_succ 0 (k + 1 - 1)).symm
      rw [show [0] ++ List.replicate k 0 = (0 : Nat) :: List.replicate k 0 from rfl] at h3
      rw [hrep] at h3
      exact h3

/-- The padding/length suffix that finalization appends, per the spec's
protocol: one `0x80`, then the number of `0x00` bytes that makes the total
byte count congruent to 56 mod 64, then the 8-byte big-endian pre-padding
bit count. -/
def shaPadding (bitcount : Nat) : List Nat :=
  0x80 :: (List.replicate ((119 - bitcount / 8 % 64) % 64) 0 ++ beBytes64 bitcount)

/-- C3: `sha256_final_bundled` absorbs exactly one `0x80`, then `0x00`
bytes until the pending byte count is 56 mod 64, then the 8-byte big-endian
encoding of the bit counter as it stood before any padding, through the
ordinary update routine, and serializes the resulting eight state words
big-endian into the 32-byte digest. -/
theorem final_padding_spec (c : CTX) (hlen : c.buffer.length = 64) :
    sha256_final_bundled c =
      stateToBytes (sha256_update_bundled c (shaPadding c.bitcount)).state := by
  have hlen1 := update_buffer_length c [0x80] hlen
  have hbc1 := update_bitcount_lt c [0x80]
  have hidx1 : (sha256_update_bundled c [0x80]).bitcount / 8 % 64 =
      (c.bitcount / 8 + 1) % 64 := by
    rw [update_bitcount]
    have := bitIndex_eq c.bitcount 1
    simpa using this
  have hz : (56 + 64 - (sha256_update_bundled c [0x80]).bitcount / 8 % 64) % 64 =
      (119 - c.bitcount / 8 % 64) % 64 := by
    rw [hidx1]
    omega
  have hpad := padZeros_eq_updateZeros 64 (sha256_update_bundled c [0x80]) (by omega)
  have h1 := ctxEquiv_updateZeros ((56 + 64 - (sha256_update_bundled c [0x80]).bitcount / 8 % 64) % 64)
    (sha256_update_bundled c [0x80]) hlen1 hbc1
  rw [hz] at h1
  have h2 := ctxEquiv_update h1 (beBytes64 c.bitcount)
  have h3 := ctxEquiv_symm (update_append_equiv (sha256_update_bundled c [0x80])
    (List.replicate ((119 - c.bitcount / 8 % 64) % 64) 0) (beBytes64 c.bitcount) hlen1)
  have h4 := ctxEquiv_symm (update_append_equiv c [0x80]
    (List.replicate ((119 - c.bitcount / 8 % 64) % 64) 0 ++ beBytes64 c.bitcount) hlen)
  have h5 := ctxEquiv_trans (ctxEquiv_trans h2 h3) h4
  simp only [sha256_final_bundled]
  rw [hpad, hz]
  rw [h5.1]
  rfl

theorem msgW_lt (data : List Nat) (i : Nat) (h : i < 16) : msgW data i = beWordAt data i := by
  rw [msgW, if_pos h]

theorem msgW_ge (data : List Nat) (i : Nat) (h : 16 ≤ i) :
    msgW data i = (sig1 (msgW data (i - 2)) + msgW data (i - 7) +
      sig0 (msgW data (i - 15)) + msgW data (i - 16)) % M32 := by
  rw [msgW, if_neg (by omega)]

theorem initW_length (data : List Nat) : (initW data).length = 16 := by
  simp [initW]

theorem initW_getD (data : List Nat) (j : Nat) (h : j < 16) :
    (initW data).getD j 0 = beWordAt data j := by
  unfold initW
  rw [List.getD_eq_getElem?_getD, List.getElem?_map, List.getElem?_range h]
  rfl

theorem extendW_getD (data : List Nat) : ∀ (k : Nat) (w : List Nat), 16 ≤ w.length →
    (∀ j, j < w.length → w.getD j 0 = msgW data j) →
    ∀ j, j < w.length + k → (extendW k w).getD j 0 = msgW data j
  | 0, w, _, hw, j, hj => by
      rw [extendW]
      exact hw j (by omega)
  | k + 1, w, h16, hw, j, hj => by
      rw [extendW]
      apply extendW_getD data k _ (by rw [List.length_append]; omega) ?_ j
        (by rw [List.length_append]; simp; omega)
      intro j' hj'
      rw [List.length_append, List.length_singleton] at hj'
      rcases Nat.lt_or_ge j' w.length with hlt | hge
      · rw [List.getD_append _ _ _ _ hlt]
        exact hw j' hlt
      · have hj'' : j' = w.length := by omega
        subst hj''
        rw [List.getD_append_right _ _ _ _ (le_refl _), Nat.sub_self]
        have hnew : ([(sig1 (w.getD (w.length - 2) 0) + w.getD (w.length - 7) 0 +
            sig0 (w.getD (w.length - 15) 0) + w.getD (w.length - 16) 0) % M32] : List Nat).getD 0 0 =
            (sig1 (w.getD (w.length - 2) 0) + w.getD (w.length - 7) 0 +
            sig0 (w.getD (w.length - 15) 0) + w.getD (w.length - 16) 0) % M32 := rfl
        rw [hnew, msgW_ge data w.length h16]
        rw [hw _ (by omega), hw _ (by omega), hw _ (by omega), hw _ (by omega)]

theorem schedule_getD (data : List Nat) (j : Nat) (hj : j < 64) :
    (schedule data).getD j 0 = msgW data j := by
  apply extendW_getD data 48 (initW data) (by rw [initW_length]) ?_ j
    (by rw [initW_length]; omega)
  intro j' hj'
  rw [initW_length] at hj'
  rw [initW_getD data j' hj', msgW_lt data j' hj']

/-- C4: the compression function equals its specification-side form — the
iteratively built 64-entry schedule array coincides with the sigma0/sigma1
recurrence, and the 64 rounds with Ch, Maj, the capital-Sigma functions and
`K256`, followed by the modular add-back, are a pure total function of the
state and block. -/
theorem sha256_transform_eq_spec (state data : List Nat) :
    sha256_transform state data = sha256_transform_spec state data := by
  have hfold : ∀ w0 : Work,
      (List.range 64).foldl (fun w i => roundStep (K256.getD i 0) ((schedule data).getD i 0) w) w0 =
      (List.range 64).foldl (fun w i => roundStep (K256.getD i 0) (msgW data i) w) w0 := by
    intro w0
    exact List.foldl_ext _ _ w0
      (fun w i hi => by rw [schedule_getD data i (List.mem_range.mp hi)])
  simp only [sha256_transform, sha256_transform_spec, hfold]

/-- The block loop of `sha256_update_bundled` instrumented with the number
of `sha256_transform_bundled` invocations: identical control flow to
`processBlocksFuel` plus a counter `k` incremented once per transformed
block. -/
def processBlocksCount : Nat → List Nat → List Nat → Nat → Nat → List Nat × Nat × Nat
  | 0, st, _, i, k => (st, i, k)
  | fuel + 1, st, data, i, k =>
      if i + 64 ≤ data.length then
        processBlocksCount fuel (sha256_transform st ((data.drop i).take 64)) data (i + 64) (k + 1)
      else (st, i, k)

/-- `sha256_update_bundled` instrumented with the number of compression
calls the update performs (one for the topped-up buffer when it flushes,
plus one per directly consumed full block). -/
def sha256_update_counting (c : CTX) (data : List Nat) : CTX × Nat :=
  let index := c.bitcount / 8 % 64
  let bitcount := (c.bitcount + data.length * 8) % M64
  let partLen := 64 - index
  if partLen ≤ data.length then
    let buf1 := writeAt c.buffer index (data.take partLen)
    let p := processBlocksCount data.length (sha256_transform c.state buf1) data partLen 0
    ({ state := p.1, bitcount := bitcount, buffer := writeAt buf1 0 (data.drop p.2.1) },
      1 + p.2.2)
  else
    ({ state := c.state, bitcount := bitcount, buffer := writeAt c.buffer index data }, 0)

theorem processBlocksCount_eq (fuel : Nat) (st d : List Nat) (i k : Nat)
    (hi : i ≤ d.length) (hf : d.length - i ≤ fuel) :
    processBlocksCount fuel st d i k =
      ((processBlocksFuel fuel st d i).1, (processBlocksFuel fuel st d i).2,
        k + (d.length - i) / 64) := by
  induction fuel generalizing st i k with
  | zero =>
      have : (d.length - i) / 64 = 0 := by omega
      simp [processBlocksCount, processBlocksFuel, this]
  | succ fuel ih =>
      by_cases hc : i + 64 ≤ d.length
      · rw [processBlocksCount, if_pos hc, processBlocksFuel, if_pos hc,
          ih _ _ _ (by omega) (by omega)]
        have : k + 1 + (d.length - (i + 64)) / 64 = k + (d.length - i) / 64 := by omega
        rw [this]
      · rw [processBlocksCount, if_neg hc, processBlocksFuel, if_neg hc]
        have : (d.length - i) / 64 = 0 := by omega
        simp [this]

theorem update_counting_fst (c : CTX) (d : List Nat) :
    (sha256_update_counting c d).1 = sha256_update_bundled c d := by
  simp only [sha256_update_counting, sha256_update_bundled]
  by_cases h : 64 - c.bitcount / 8 % 64 ≤ d.length
  · rw [if_pos h, if_pos h,
      processBlocksCount_eq d.length _ d _ 0 (by omega) (by omega)]
  · rw [if_neg h, if_neg h]

theorem update_counting_snd (c : CTX) (d : List Nat) :
    (sha256_update_counting c d).2 =
      if 64 - ctxIndex c ≤ d.length then 1 + (d.length - (64 - ctxIndex c)) / 64 else 0 := by
  unfold ctxIndex
  simp only [sha256_update_counting]
  by_cases h : 64 - c.bitcount / 8 % 64 ≤ d.length
  · rw [if_pos h, if_pos h,
      processBlocksCount_eq d.length _ d _ 0 (by omega) (by omega)]
    simp
  · rw [if_neg h, if_neg h]

/-- Absorb a list of chunks from a freshly initialized context, tracking
the cumulative number of compression-function invocations. -/
def absorbCounting (buf : List Nat) (cs : List (List Nat)) : CTX × Nat :=
  cs.foldl (fun p d =>
    ((sha256_update_counting p.1 d).1, p.2 + (sha256_update_counting p.1 d).2))
    (sha256_init_bundled buf, 0)

theorem absorb_counting_invariant : ∀ (cs : List (List Nat)) (m : List Nat) (c : CTX) (k : Nat),
    Good m c → k = m.length / 64 →
    Good (m ++ cs.flatten)
        (cs.foldl (fun p d =>
          ((sha256_update_counting p.1 d).1, p.2 + (sha256_update_counting p.1 d).2)) (c, k)).1 ∧
      (cs.foldl (fun p d =>
          ((sha256_update_counting p.1 d).1, p.2 + (sha256_update_counting p.1 d).2)) (c, k)).2 =
        (m ++ cs.flatten).length / 64
  | [], m, c, k, hg, hk => by
      constructor
      · simpa using hg
      · simpa [List.length_append] using hk
  | d :: cs, m, c, k, hg, hk => by
      have hstep : ((sha256_update_counting c d).1, k + (sha256_update_counting c d).2) =
          (sha256_update_bundled c d, (m ++ d).length / 64) := by
        rw [update_counting_fst, update_counting_snd, good_index hg]
        congr 1
        rw [List.length_append]
        by_cases h : 64 - m.length % 64 ≤ d.length
        · rw [if_pos h]
          omega
        · rw [if_neg h]
          omega
      have hrec := absorb_counting_invariant cs (m ++ d) (sha256_update_bundled c d)
        ((m ++ d).length / 64) (good_update hg d) rfl
      constructor
      · have := hrec.1
        simp only [List.foldl_cons, hstep]
        simpa [List.append_assoc] using this
      · have := hrec.2
        simp only [List.foldl_cons, hstep]
        simpa [List.append_assoc] using this

/-- C9: after any sequence of update calls from a freshly initialized
context, the pending byte count `(bitcount/8) % 64` equals the total
absorbed length mod 64 — in particular it is strictly below 64 — and the
compression function has been invoked exactly `floor(total/64)` times. -/
theorem pending_buffer_invariant (cs : List (List Nat)) (buf : List Nat)
    (hbuf : buf.length = 64) :
    ctxIndex (absorbCounting buf cs).1 = cs.flatten.length % 64 ∧
      ctxIndex (absorbCounting buf cs).1 < 64 ∧
      (absorbCounting buf cs).2 = cs.flatten.length / 64 := by
  have h := absorb_counting_invariant cs [] (sha256_init_bundled buf) 0
    (good_init buf hbuf) rfl
  rw [List.nil_append] at h
  refine ⟨?_, ctxIndex_lt _, ?_⟩
  · exact good_index h.1
  · exact h.2

/-- A character is a lowercase hexadecimal digit: `0`-`9` or `a`-`f`. -/
def isLowerHexDigit (a : Char) : Bool :=
  (48 ≤ a.toNat && a.toNat ≤ 57) || (97 ≤ a.toNat && a.toNat ≤ 102)

theorem hexDigit_isLowerHexDigit : ∀ n, n < 16 → isLowerHexDigit (hexDigit n) = true := by
  decide

theorem toHexChars_cons (b : Nat) (bs : List Nat) :
    toHexChars (b :: bs) = hexDigit (b / 16) :: hexDigit (b % 16) :: toHexChars bs := rfl

theorem toHexChars_length (bytes : List Nat) : (toHexChars bytes).length = 2 * bytes.length := by
  induction bytes with
  | nil => rfl
  | cons b bs ih =>
      rw [toHexChars_cons, List.length_cons, List.length_cons, ih, List.length_cons]
      omega

theorem toHexChars_mem (bytes : List Nat) (hb : ∀ b ∈ bytes, b < 256) :
    ∀ a ∈ toHexChars bytes, isLowerHexDigit a = true := by
  induction bytes with
  | nil => intro a ha; simp [toHexChars] at ha
  | cons b bs ih =>
      intro a ha
      rw [toHexChars_cons] at ha
      have hb0 : b < 256 := hb b (by simp)
      simp only [List.mem_cons] at ha
      rcases ha with rfl | rfl | ha
      · exact hexDigit_isLowerHexDigit (b / 16) (by omega)
      · exact hexDigit_isLowerHexDigit (b % 16) (by omega)
      · exact ih (fun x hx => hb x (List.mem_cons_of_mem _ hx)) a ha

/-- C6: for every 32-byte digest, the hex-encoding step produces a string
of exactly 64 characters, each byte rendered high nibble first as two
lowercase hexadecimal digits with no separators, so the output matches
the pattern of 64 characters drawn from `[0-9a-f]`. -/
theorem toHex_is_64_lowercase_hex (digest : List Nat) (hlen : digest.length = 32)
    (hb : ∀ b ∈ digest, b < 256) :
    (toHex digest).length = 64 ∧ ∀ a ∈ (toHex digest).toList, isLowerHexDigit a = true := by
  constructor
  · show (toHexChars digest).length = 64
    rw [toHexChars_length, hlen]
  · intro a ha
    exact toHexChars_mem digest hb a ha

/-- C5: hashing an empty input — a context that is initialized and
finalized with no bytes absorbed, or equivalently `sha256_file_native` on
a zero-byte file (`fread` immediately returns 0 at end-of-file) — yields
the digest whose lowercase hex rendering is the well-known SHA-256
empty-input value. -/
theorem empty_input_digest :
    toHex (sha256_final_bundled (sha256_init_bundled (List.replicate 64 0))) =
      "e3b0c44298fc1c149afbf4c8996fb92427ae41e4649b934ca495991b7852b855" ∧
    sha256_file_native
        { contents := some [], readError := false, allocOk := true,
          garbage := List.replicate 64 0 } =
      some "e3b0c44298fc1c149afbf4c8996fb92427ae41e4649b934ca495991b7852b855" := by
  constructor <;> decide

/-- C2 (behavior at the failing input): a mid-stream read failure is NOT
surfaced.  On a stream that delivers the bytes of "abc" and then fails
with an I/O error (`fread` returns 0 with the error flag set, which the
loop `while (fread(...) > 0)` cannot distinguish from end-of-file because
it never calls `ferror`), `sha256_file_native` finalizes and returns the
digest of the partial data instead of aborting with an error. -/
theorem read_error_yields_digest :
    failureKind
        { contents := some [[0x61, 0x62, 0x63]], readError := true, allocOk := true,
          garbage := List.replicate 64 0 } = some ErrKind.ReadFailure ∧
    sha256_file_native
        { contents := some [[0x61, 0x62, 0x63]], readError := true, allocOk := true,
          garbage := List.replicate 64 0 } =
      some "ba7816bf8f01cfea414140de5dae2223b00361a396177a9cb410ff61f20015ad" := by
  refine ⟨rfl, ?_⟩
  decide

/-- C7 counterexample: the failure outcomes of `sha256_file_native` are not
classified.  A run whose spec-classified failure kind is `ReadFailure`
returns a digest string rather than any error, and an open failure and an
allocation failure — distinct kinds — both return the bare `NULL`, so no
function of the returned value can recover the failure kind. -/
theorem error_kinds_not_distinguishable :
    (failureKind
        { contents := some [[1]], readError := true, allocOk := true,
          garbage := List.replicate 64 0 } = some ErrKind.ReadFailure ∧
      sha256_file_native
        { contents := some [[1]], readError := true, allocOk := true,
          garbage := List.replicate 64 0 } ≠ none) ∧
    (failureKind { contents := none, readError := false, allocOk := true, garbage := [] } ≠
        failureKind { contents := some [], readError := false, allocOk := false, garbage := [] } ∧
      sha256_file_native { contents := none, readError := false, allocOk := true, garbage := [] } =
        sha256_file_native
          { contents := some [], readError := false, allocOk := false, garbage := [] }) := by
  refine ⟨⟨rfl, ?_⟩, ⟨by decide, rfl⟩⟩
  simp [sha256_file_native]

/-- C7 (amended): on an open failure or an allocation failure the caller
receives the single undifferentiated `NULL` and never a digest string; the
failure kinds are not distinguishable from the returned value, and
mid-stream read failures are not detected at all (the bytes read before
the error are hashed as if the file had ended). -/
theorem open_or_alloc_failure_returns_none (env : FileEnv)
    (h : failureKind env = some ErrKind.SourceUnavailable ∨
         failureKind env = some ErrKind.AllocationFailure) :
    sha256_file_native env = none := by
  rcases env with ⟨contents, re, alloc, g⟩
  cases contents with
  | none => rfl
  | some chunks =>
      cases alloc with
      | false => rfl
      | true =>
          exfalso
          simp only [failureKind] at h
          cases re <;> simp_all

/-- C8: calling `sha256_file_native` on a path that cannot be opened
(`fopen` returns `NULL`, e.g. the path does not exist) produces no digest
string, and the spec's classification of this failure is
`SourceUnavailable`. -/
theorem nonexistent_path_no_digest (env : FileEnv) (h : env.contents = none) :
    sha256_file_native env = none ∧ failureKind env = some ErrKind.SourceUnavailable := by
  unfold sha256_file_native failureKind
  rw [h]
  exact ⟨rfl, rfl⟩

/-- Witness for C1: chunking invariance at a concrete split. -/
theorem chunking_invariance_witness :
    sha256_final_bundled (sha256_update_bundled (sha256_update_bundled
        (sha256_init_bundled (List.replicate 64 0)) [1, 2, 3]) [4, 5]) =
      sha256_final_bundled (sha256_update_bundled (sha256_init_bundled (List.replicate 64 0))
        ([1, 2, 3] ++ [4, 5])) :=
  chunking_invariance [1, 2, 3] [4, 5] (List.replicate 64 0) (by decide)

/-- Witness for C3: the padding characterization at a concrete context. -/
theorem final_padding_spec_witness :
    sha256_final_bundled (sha256_init_bundled (List.replicate 64 0)) =
      stateToBytes (sha256_update_bundled (sha256_init_bundled (List.replicate 64 0))
        (shaPadding (sha256_init_bundled (List.replicate 64 0)).bitcount)).state :=
  final_padding_spec (sha256_init_bundled (List.replicate 64 0)) (by decide)

/-- Witness for C6: the hex rendering of a concrete 32-byte digest. -/
theorem toHex_is_64_lowercase_hex_witness :
    (toHex (List.replicate 32 255)).length = 64 ∧
      ∀ a ∈ (toHex (List.replicate 32 255)).toList, isLowerHexDigit a = true :=
  toHex_is_64_lowercase_hex (List.replicate 32 255) (by decide) (by decide)

/-- Witness for the amended C7: a concrete open failure returns `NULL`. -/
theorem open_or_alloc_failure_returns_none_witness :
    sha256_file_native { contents := none, readError := false, allocOk := true, garbage := [] } =
      none :=
  open_or_alloc_failure_returns_none
    { contents := none, readError := false, allocOk := true, garbage := [] } (Or.inl rfl)

/-- Witness for C8: a concrete unopenable source. -/
theorem nonexistent_path_no_digest_witness :
    sha256_file_native { contents := none, readError := true, allocOk := false, garbage := [7] } =
        none ∧
      failureKind { contents := none, readError := true, allocOk := false, garbage := [7] } =
        some ErrKind.SourceUnavailable :=
  nonexistent_path_no_digest
    { contents := none, readError := true, allocOk := false, garbage := [7] } rfl

/-- Witness for C9: the pending-buffer invariant at a concrete chunk list. -/
theorem pending_buffer_invariant_witness :
    ctxIndex (absorbCounting (List.replicate 64 0) [[1, 2], List.replicate 70 3]).1 =
        ([[1, 2], List.replicate 70 3] : List (List Nat)).flatten.length % 64 ∧
      ctxIndex (absorbCounting (List.replicate 64 0) [[1, 2], List.replicate 70 3]).1 < 64 ∧
      (absorbCounting (List.replicate 64 0) [[1, 2], List.replicate 70 3]).2 =
        ([[1, 2], List.replicate 70 3] : List (List Nat)).flatten.length / 64 :=
  pending_buffer_invariant [[1, 2], List.replicate 70 3] (List.replicate 64 0) (by decide)

/-- Witness for C10: two different chunkings of the same bytes with
different buffer garbage. -/
theorem digest_stream_deterministic_witness :
    sha256_final_bundled (([[1], [2, 3]] : List (List Nat)).foldl sha256_update_bundled
        (sha256_init_bundled (List.replicate 64 0))) =
      sha256_final_bundled (([[1, 2], [3]] : List (List Nat)).foldl sha256_update_bundled
        (sha256_init_bundled (List.replicate 64 9))) :=
  digest_stream_deterministic [[1], [2, 3]] [[1, 2], [3]] (List.replicate 64 0)
    (List.replicate 64 9) (by decide) (by decide) (by decide)
